import Mathlib

/-!
Verification of the CENTRACKER pair-candidate detection engine
(`src/utils.py`) against its natural-language specification.

The Python source is shallowly embedded: times are integers (`ℤ`; edge
times are rounded to integer in the source and the loops advance one unit
at a time), coordinates and photometric values are rationals (`ℚ`), and
quantities produced through `math.sqrt` (Euclidean distances, standard
deviations, normalized vectors) live in `ℝ` via `Real.sqrt`.  Python
dictionaries become lookup functions; dictionary iteration in insertion
order becomes an explicit list.
-/

namespace Centracker

/-- Counter loop of `findCong` (utils.py lines 38-49).  State is
`t_prev`, `t_cong`, `all_periods`; the input list is `zip(time, dist)`.
A non-continuous time (`t_prev + 1 != t`) appends the running counter
(when non-zero) and resets it; a distance strictly below `max_dist`
increments the counter.  Note the source never resets the counter on an
above-threshold distance. -/
def findCongLoop {α : Type} [LinearOrder α] (max_dist : α) :
    ℤ → ℕ → List ℕ → List (ℤ × α) → List ℕ
  | _, t_cong, all_periods, [] => all_periods ++ [t_cong]
  | t_prev, t_cong, all_periods, (t, d) :: rest =>
    let periods := if t_prev + 1 ≠ t then
        (if t_cong ≠ 0 then all_periods ++ [t_cong] else all_periods)
      else all_periods
    let cong : ℕ := if t_prev + 1 ≠ t then 0 else t_cong
    let cong' := if d < max_dist then cong + 1 else cong
    findCongLoop max_dist t cong' periods rest

/-- Python `max` over the (always nonempty, natural-valued) `all_periods`
list; for a nonempty list of naturals it agrees with `foldl max 0`. -/
def maxList (l : List ℕ) : ℕ := l.foldl max 0

/-- Embedding of `findCong` (utils.py lines 28-50).  The source reads
`time[0]` unconditionally, so the empty time list raises `IndexError`;
this is modeled by `none`.  The distance type is abstract (the Python
function is duck-typed over ordered numerics): it is instantiated at `ℚ`
for standalone inputs and at `ℝ` for the distances produced by
`findDist`. -/
def findCong {α : Type} [LinearOrder α]
    (time : List ℤ) (dist : List α) (max_dist : α) : Option ℕ :=
  match time with
  | [] => none
  | t0 :: _ => some (maxList (findCongLoop max_dist (t0 - 1) 0 [] (time.zip dist)))

section FindCongLemmas

variable {α : Type} [LinearOrder α] {θ : α}

/-- Accumulated periods are only ever appended to, so a prefix of the
accumulator factors out of the loop. -/
theorem findCongLoop_append_acc (θ : α) (l : List (ℤ × α)) :
    ∀ (p : ℤ) (c : ℕ) (a1 a2 : List ℕ),
      findCongLoop θ p c (a1 ++ a2) l = a1 ++ findCongLoop θ p c a2 l := by
  induction l with
  | nil =>
    intro p c a1 a2
    simp [findCongLoop]
  | cons hd tl ih =>
    intro p c a1 a2
    obtain ⟨t, d⟩ := hd
    simp only [findCongLoop]
    split_ifs <;>
      first
        | (rw [List.append_assoc]; exact ih t _ a1 (a2 ++ [c]))
        | exact ih t _ a1 a2

/-- Specialization: the accumulator factors out of the loop. -/
theorem findCongLoop_acc (θ : α) (l : List (ℤ × α)) (p : ℤ) (c : ℕ) (a : List ℕ) :
    findCongLoop θ p c a l = a ++ findCongLoop θ p c [] l := by
  have h := findCongLoop_append_acc θ l p c a []
  simpa using h

theorem foldl_max_init (l : List ℕ) : ∀ i : ℕ, l.foldl max i = max i (l.foldl max 0) := by
  induction l with
  | nil => intro i; simp
  | cons x xs ih =>
    intro i
    simp only [List.foldl_cons]
    rw [ih (max i x), ih (max 0 x)]
    omega

theorem maxList_append (l1 l2 : List ℕ) :
    maxList (l1 ++ l2) = max (maxList l1) (maxList l2) := by
  unfold maxList
  rw [List.foldl_append, foldl_max_init]

theorem maxList_singleton (c : ℕ) : maxList [c] = c := by
  simp [maxList]

/-- On a gap-free (contiguous) time sequence the loop never resets: it
simply counts the below-threshold distances on top of the incoming
counter. -/
theorem findCongLoop_contig (θ : α) (dist : List α) :
    ∀ (p : ℤ) (c : ℕ) (a : List ℕ),
      findCongLoop θ p c a
          (((List.range dist.length).map (fun k : ℕ => p + 1 + (k : ℤ))).zip dist) =
        a ++ [c + dist.countP (fun d => decide (d < θ))] := by
  induction dist with
  | nil => intro p c a; simp [findCongLoop]
  | cons d ds ih =>
    intro p c a
    have hrange : (List.range (d :: ds).length).map (fun k : ℕ => p + 1 + (k : ℤ)) =
        (p + 1) :: (List.range ds.length).map (fun k : ℕ => (p + 1) + 1 + (k : ℤ)) := by
      rw [List.length_cons, List.range_succ_eq_map, List.map_cons, List.map_map]
      refine congrArg₂ _ (by simp) (List.map_congr_left fun k _ => ?_)
      simp only [Function.comp_apply]
      push_cast
      ring
    rw [hrange, List.zip_cons_cons]
    simp only [findCongLoop]
    have hnogap : ¬ (p + 1 ≠ p + 1) := by simp
    simp only [hnogap, if_false, if_neg hnogap]
    by_cases hd : d < θ
    · rw [if_pos hd, ih (p + 1) (c + 1) a]
      have hcnt : (d :: ds).countP (fun x => decide (x < θ)) =
          ds.countP (fun x => decide (x < θ)) + 1 := by
        rw [List.countP_cons]
        simp [hd]
      rw [hcnt]
      have : c + 1 + ds.countP (fun x => decide (x < θ)) =
          c + (ds.countP (fun x => decide (x < θ)) + 1) := by omega
      rw [this]
    · rw [if_neg hd, ih (p + 1) c a]
      have hcnt : (d :: ds).countP (fun x => decide (x < θ)) =
          ds.countP (fun x => decide (x < θ)) := by
        rw [List.countP_cons]
        simp [hd]
      rw [hcnt]

/-- Last time in a zipped sample list, defaulting to `p` when empty. -/
def lastTimeD {α : Type} (p : ℤ) (z : List (ℤ × α)) : ℤ :=
  ((z.getLast?).map Prod.fst).getD p

/-- A gap at the head of the remaining input flushes the counter and
restarts the loop as if freshly initialized at the head time. -/
theorem findCongLoop_gap_head (θ : α) (t : ℤ) (d : α) (l : List (ℤ × α))
    (p : ℤ) (c : ℕ) (hgap : p + 1 ≠ t) :
    findCongLoop θ p c [] ((t, d) :: l) =
      (if c ≠ 0 then [c] else []) ++ findCongLoop θ (t - 1) 0 [] ((t, d) :: l) := by
  conv_lhs => simp only [findCongLoop]
  conv_rhs => rw [findCongLoop]
  have hnogap : ¬ (t - 1 + 1 ≠ t) := by omega
  simp only [if_pos hgap, if_neg hnogap, hnogap]
  rw [findCongLoop_acc]
  simp

/-- One loop step, with the flushed period pulled out in front. -/
theorem findCongLoop_cons_eq (θ : α) (p : ℤ) (c : ℕ) (t : ℤ) (d : α)
    (l : List (ℤ × α)) :
    findCongLoop θ p c [] ((t, d) :: l) =
      (if p + 1 ≠ t ∧ c ≠ 0 then [c] else []) ++
        findCongLoop θ t
          (if d < θ then (if p + 1 ≠ t then 0 else c) + 1
           else (if p + 1 ≠ t then 0 else c)) [] l := by
  simp only [findCongLoop]
  by_cases hg : p + 1 ≠ t
  · by_cases hc : c ≠ 0
    · simp only [if_pos hg, if_pos hc, if_pos (And.intro hg hc), List.nil_append]
      rw [findCongLoop_acc]
    · simp only [if_pos hg, if_neg hc, if_neg (fun h : _ ∧ _ => hc h.2), List.nil_append]
  · simp only [if_neg hg, if_neg (fun h : _ ∧ _ => hg h.1), List.nil_append]

/-- Splitting the loop at a time gap: the overall maximum is the maximum
over the two sides, the right side restarted fresh. -/
theorem findCongLoop_split (θ : α) (z1 : List (ℤ × α)) :
    ∀ (h2 : ℤ × α) (z2 : List (ℤ × α)) (p : ℤ) (c : ℕ),
      lastTimeD p z1 + 1 ≠ h2.1 →
      maxList (findCongLoop θ p c [] (z1 ++ h2 :: z2)) =
        max (maxList (findCongLoop θ p c [] z1))
            (maxList (findCongLoop θ (h2.1 - 1) 0 [] (h2 :: z2))) := by
  induction z1 with
  | nil =>
    intro h2 z2 p c hgap
    obtain ⟨t, d⟩ := h2
    simp only [lastTimeD, List.getLast?_nil, Option.map_none', Option.getD_none] at hgap
    rw [List.nil_append, findCongLoop_gap_head θ t d z2 p c hgap, maxList_append]
    have h1 : maxList (findCongLoop θ p c [] ([] : List (ℤ × α))) = c := by
      simp [findCongLoop, maxList]
    rw [h1]
    by_cases hc : c ≠ 0
    · rw [if_pos hc, maxList_singleton]
    · rw [if_neg hc]
      push_neg at hc
      subst hc
      simp [maxList]
  | cons hd tl ih =>
    intro h2 z2 p c hgap
    obtain ⟨t, d⟩ := hd
    have hlast : lastTimeD t tl = lastTimeD p ((t, d) :: tl) := by
      cases tl with
      | nil => simp [lastTimeD]
      | cons x xs =>
        have hne : (x :: xs).getLast?.isSome := by
          rw [List.getLast?_isSome]
          simp
        obtain ⟨pr, hpr⟩ := Option.isSome_iff_exists.mp hne
        simp [lastTimeD, List.getLast?_cons_cons, hpr]
    rw [List.cons_append, findCongLoop_cons_eq, findCongLoop_cons_eq θ p c t d tl,
      maxList_append, maxList_append, ih h2 z2 t _ (by rw [hlast]; exact hgap)]
    omega

/-- When every distance is at or above the threshold the counter never
advances and every recorded period is zero. -/
theorem findCongLoop_all_above (θ : α) (z : List (ℤ × α))
    (hall : ∀ pr ∈ z, ¬ pr.2 < θ) :
    ∀ p : ℤ, findCongLoop θ p 0 [] z = [0] := by
  induction z with
  | nil => intro p; simp [findCongLoop]
  | cons hd tl ih =>
    intro p
    obtain ⟨t, d⟩ := hd
    have hd' : ¬ d < θ := hall (t, d) (List.mem_cons_self _ _)
    simp only [findCongLoop, if_neg hd']
    have : ∀ pr ∈ tl, ¬ pr.2 < θ := fun pr hpr => hall pr (List.mem_cons_of_mem _ hpr)
    split_ifs with hg hz
    · exact absurd rfl hz
    · exact ih this t
    · exact ih this t

end FindCongLemmas

/-- Claim C1, counterexample.  For the spec's example scenario — 11
contiguous samples with distances `[3,3,2,2,6,6,2,2,2,2,2]` and threshold
4 — `findCong` returns 9 (the sum of the two below-threshold sub-runs),
not the claimed 4: an above-threshold distance does not terminate the
current run in the source, it merely fails to increment the counter. -/
theorem findCong_example_returns_nine :
    findCong [10, 11, 12, 13, 14, 15, 16, 17, 18, 19, 20]
        ([3, 3, 2, 2, 6, 6, 2, 2, 2, 2, 2] : List ℚ) 4 = some 9 ∧
      findCong [10, 11, 12, 13, 14, 15, 16, 17, 18, 19, 20]
        ([3, 3, 2, 2, 6, 6, 2, 2, 2, 2, 2] : List ℚ) 4 ≠ some 4 := by
  constructor
  · decide
  · decide

/-- Claim C1, amended.  For every nonempty gap-free (contiguous) sample
sequence, `findCong` returns the total number of samples whose distance
is strictly below the threshold — the sum of all below-threshold
sub-runs, not the maximum one: an above-threshold sample never
terminates the current run (only a time gap does). -/
theorem findCong_gapfree_counts_all {α : Type} [LinearOrder α]
    (t0 : ℤ) (dist : List α) (θ : α) (hne : dist ≠ []) :
    findCong ((List.range dist.length).map (fun k : ℕ => t0 + (k : ℤ))) dist θ =
      some (dist.countP (fun d => decide (d < θ))) := by
  cases dist with
  | nil => exact absurd rfl hne
  | cons d ds =>
    have key := findCongLoop_contig θ (d :: ds) (t0 - 1) 0 []
    have hts : (List.range (d :: ds).length).map (fun k : ℕ => t0 - 1 + 1 + (k : ℤ)) =
        (List.range (d :: ds).length).map (fun k : ℕ => t0 + (k : ℤ)) :=
      List.map_congr_left fun k _ => by ring
    rw [hts] at key
    have hexp : (List.range (d :: ds).length).map (fun k : ℕ => t0 + (k : ℤ)) =
        t0 :: (List.range ds.length).map (fun k : ℕ => t0 + 1 + (k : ℤ)) := by
      rw [List.length_cons, List.range_succ_eq_map, List.map_cons, List.map_map]
      refine congrArg₂ _ (by simp) (List.map_congr_left fun k _ => ?_)
      simp only [Function.comp_apply]
      push_cast
      ring
    rw [hexp] at key ⊢
    simp only [findCong]
    rw [key]
    simp [maxList_singleton]

/-- Witness for the amended claim C1 at the spec's example input. -/
theorem findCong_gapfree_counts_all_witness :
    findCong ((List.range ([3, 3, 2, 2, 6, 6, 2, 2, 2, 2, 2] : List ℚ).length).map
        (fun k : ℕ => (10 : ℤ) + (k : ℤ)))
      ([3, 3, 2, 2, 6, 6, 2, 2, 2, 2, 2] : List ℚ) 4 =
      some (([3, 3, 2, 2, 6, 6, 2, 2, 2, 2, 2] : List ℚ).countP
        (fun d => decide (d < 4))) :=
  findCong_gapfree_counts_all 10 _ 4 (by decide)

/-- Claim C6.  In `findCong`: a time gap (consecutive sample times not 1
apart) always terminates the current run and starts a new one, even when
the distances on both sides are below the threshold (the result over the
concatenation is the maximum of the two sides); a single sample returns
1 or 0 according to its distance; and an input whose distances are all
at or above the threshold returns 0. -/
theorem findCong_gap_terminates_run (θ : ℚ) :
    (∀ (t1 : List ℤ) (d1 : List ℚ) (t2 : List ℤ) (d2 : List ℚ) (tl th : ℤ),
        t1.length = d1.length → t2.length = d2.length →
        t1.getLast? = some tl → t2.head? = some th → tl + 1 ≠ th →
        ∃ a b, findCong t1 d1 θ = some a ∧ findCong t2 d2 θ = some b ∧
          findCong (t1 ++ t2) (d1 ++ d2) θ = some (max a b)) ∧
    (∀ (t : ℤ) (d : ℚ), findCong [t] [d] θ = some (if d < θ then 1 else 0)) ∧
    (∀ (time : List ℤ) (dist : List ℚ), time ≠ [] →
        (∀ d ∈ dist, ¬ d < θ) → findCong time dist θ = some 0) := by
  refine ⟨?_, ?_, ?_⟩
  · intro t1 d1 t2 d2 tl th hlen1 hlen2 hlast hhead hgap
    cases t1 with
    | nil => simp at hlast
    | cons tA t1' =>
    cases t2 with
    | nil => simp at hhead
    | cons tB t2' =>
    cases d2 with
    | nil => simp at hlen2
    | cons e d2' =>
    have hth : th = tB := by
      simp only [List.head?_cons, Option.some.injEq] at hhead
      exact hhead.symm
    rw [hth] at hgap
    refine ⟨maxList (findCongLoop θ (tA - 1) 0 [] ((tA :: t1').zip d1)),
      maxList (findCongLoop θ (tB - 1) 0 [] ((tB :: t2').zip (e :: d2'))), rfl, rfl, ?_⟩
    have hzip : ((tA :: t1') ++ tB :: t2').zip (d1 ++ e :: d2') =
        (tA :: t1').zip d1 ++ (tB :: t2').zip (e :: d2') :=
      List.zip_append hlen1
    rw [List.cons_append, List.zip_cons_cons] at hzip
    have hlastD : lastTimeD (tA - 1) ((tA :: t1').zip d1) = tl := by
      unfold lastTimeD
      rw [← List.getLast?_map, List.map_fst_zip _ _ (le_of_eq hlen1), hlast]
      rfl
    have hsplit := findCongLoop_split θ ((tA :: t1').zip d1) (tB, e) (t2'.zip d2')
      (tA - 1) 0 (by rw [hlastD]; exact hgap)
    simp only [List.cons_append, findCong]
    rw [hzip, hsplit, List.zip_cons_cons]
  · intro t d
    have hng : ¬ (t - 1 + 1 ≠ t) := by omega
    simp only [findCong, List.zip_cons_cons, List.zip_nil_right, findCongLoop,
      if_neg hng, List.nil_append]
    split_ifs <;> simp [maxList]
  · intro time dist hne hall
    cases time with
    | nil => exact absurd rfl hne
    | cons t0 trest =>
      have hz : ∀ pr ∈ (t0 :: trest).zip dist, ¬ pr.2 < θ := by
        intro pr hpr
        obtain ⟨t, d⟩ := pr
        exact hall d (List.of_mem_zip hpr).2
      simp only [findCong]
      rw [findCongLoop_all_above θ _ hz]
      simp [maxList]

/-- Witness for claim C6 on concrete inputs: a gap between times 1 and 5
with all distances below threshold yields the max of the two sides. -/
theorem findCong_gap_terminates_run_witness :
    findCong [0, 1, 5, 6, 7] ([1, 1, 1, 1, 1] : List ℚ) 4 = some 3 := by
  obtain ⟨hsplit, -, -⟩ := findCong_gap_terminates_run 4
  obtain ⟨a, b, ha, hb, hab⟩ := hsplit [0, 1] [1, 1] [5, 6, 7] [1, 1, 1] 1 5
    (by decide) (by decide) (by decide) (by decide) (by decide)
  have ha' : a = 2 := by
    rw [show findCong [0, 1] ([1, 1] : List ℚ) 4 = some 2 from by decide] at ha
    exact (Option.some.injEq _ _ ▸ ha.symm)
  have hb' : b = 3 := by
    rw [show findCong [5, 6, 7] ([1, 1, 1] : List ℚ) 4 = some 3 from by decide] at hb
    exact (Option.some.injEq _ _ ▸ hb.symm)
  subst ha' hb'
  exact hab

/-- Embedding of the `spot` record (utils.py lines 439-456), restricted
to the fields the core reads: position and photometrics. -/
structure Spot where
  x : ℚ
  y : ℚ
  z : ℚ
  diam : ℚ
  maxInt : ℚ
  contrast : ℚ

/-- Embedding of the `track` record (utils.py lines 472-483).  Times are
integer-valued in the data (edge times are rounded to integers by the
parser and the loops advance one unit at a time). -/
structure Track where
  id : ℤ
  x : ℚ
  y : ℚ
  z : ℚ
  t_i : ℤ
  t_f : ℤ
  duration : ℚ
  diameter : ℚ
  contrast : ℚ
  intensity : ℚ

/-- Threshold configuration stored by `TrackPairer.__init__` (utils.py
lines 489-528). -/
structure Config where
  max_dist : ℚ
  min_dist : ℚ
  maxcongdist : ℚ
  min_overlap : ℚ

/-- Embedding of `TrackPairer.__init__` (utils.py lines 489-528): the
constructor prints the parameters and stores them unconditionally;
no range validation of any threshold is performed. -/
def initPairer (maxdist mindist maxcongdist minoverlap : ℚ) : Config :=
  { max_dist := maxdist, min_dist := mindist,
    maxcongdist := maxcongdist, min_overlap := minoverlap }

/-- Embedding of the `cell` pair-candidate record (utils.py lines
418-434).  `dist2border` starts out unset (`None`) and is filled in by
`cell_dist2border`. -/
structure Cell where
  centID_i : ℤ
  centID_j : ℤ
  t_overlap : ℤ
  t_cong : ℚ
  sl_i : ℝ
  sl_f : ℝ
  sl_min : ℝ
  sl_max : ℝ
  center : ℚ × ℚ × ℚ
  center_stdev : ℝ
  normal_stdev : ℝ
  dist2border : Option ℚ
  diameter : ℚ
  intensity : ℚ
  contrast : ℚ

/-- State of a `TrackPairer` after the bookkeeping steps (`getAllSpots`,
`getAllTracks`): thresholds, border bounds, the spot lookup, the derived
per-track time-to-spot-id map, and the surviving tracks in dictionary
insertion order.  `allSpots` is total because the source indexes the spot
dictionary directly (a missing id would raise) and every id reached
through `allEdges` is present in the parsed data. -/
structure Pairer where
  cfg : Config
  top : ℚ
  bottom : ℚ
  left : ℚ
  right : ℚ
  allSpots : ℤ → Spot
  allEdges : ℤ → ℤ → Option ℤ
  trackList : List Track

/-- Dictionary lookup `self.allTracks[id]`.  The dictionary is keyed by
track id, so with unique ids `find?` coincides with the Python lookup. -/
def lookupTrack (p : Pairer) (i : ℤ) : Option Track :=
  p.trackList.find? (fun tr => tr.id = i)

/-- Python `statistics.mean` over rationals: sum divided by length (the
source only calls it on nonempty lists; on `[]` the model yields 0 where
Python raises). -/
def meanQ (l : List ℚ) : ℚ := l.sum / l.length

/-- Python `statistics.mean` over the real-valued distance lists. -/
noncomputable def meanR (l : List ℝ) : ℝ := l.sum / l.length

/-- Python `min` of a nonempty list (call sites are guarded; `[]` gives
the junk value 0 where Python raises). -/
noncomputable def listMin : List ℝ → ℝ
  | [] => 0
  | x :: xs => xs.foldl min x

/-- Python `max` of a nonempty list (call sites are guarded). -/
noncomputable def listMax : List ℝ → ℝ
  | [] => 0
  | x :: xs => xs.foldl max x

/-- Embedding of `scipy.spatial.distance.euclidean` on the two spots'
3-D positions. -/
noncomputable def euclidean (s1 s2 : Spot) : ℝ :=
  Real.sqrt (((s1.x - s2.x : ℚ) : ℝ) ^ 2 + ((s1.y - s2.y : ℚ) : ℝ) ^ 2 +
    ((s1.z - s2.z : ℚ) : ℝ) ^ 2)

/-- Embedding of `normalize` (utils.py lines 18-26): unit-normalize a
3-vector, returning the zero vector when the length is zero. -/
noncomputable def normalize (v : ℚ × ℚ × ℚ) : ℝ × ℝ × ℝ :=
  let x : ℝ := (v.1 : ℝ)
  let y : ℝ := (v.2.1 : ℝ)
  let z : ℝ := (v.2.2 : ℝ)
  let length : ℝ := Real.sqrt (x ^ 2 + y ^ 2 + z ^ 2)
  if length = 0 then (0, 0, 0) else (x / length, y / length, z / length)

/-- Python `statistics.stdev` (sample standard deviation) of a rational
list.  Python raises for fewer than two points; call sites are guarded by
the two-sample filter, and the model's division by zero yields 0 there. -/
noncomputable def stdevQ (l : List ℚ) : ℝ :=
  Real.sqrt ((((l.map (fun v => (v - meanQ l) ^ 2)).sum : ℚ) : ℝ) /
    ((l.length : ℝ) - 1))

/-- Python `statistics.stdev` of a real-valued list. -/
noncomputable def stdevR (l : List ℝ) : ℝ :=
  Real.sqrt ((l.map (fun v => (v - meanR l) ^ 2)).sum / ((l.length : ℝ) - 1))

/-- The four parallel output sequences of `findDist`: distances, center
coordinates, normalized normal coordinates, and times.  The source keeps
the coordinate lists in per-axis dictionaries; they are flattened here. -/
structure FDOut where
  sl : List ℝ
  cx : List ℚ
  cy : List ℚ
  cz : List ℚ
  nx : List ℝ
  ny : List ℝ
  nz : List ℝ
  time : List ℤ

/-- The `while t < stop` loop of `findDist` (utils.py lines 640-674),
with fuel equal to the number of remaining iterations.  A time at which
either track has no mapped spot is skipped without appending to any
sequence. -/
noncomputable def findDistLoop (p : Pairer) (idI idJ : ℤ) : ℤ → ℕ → FDOut
  | _, 0 => ⟨[], [], [], [], [], [], [], []⟩
  | t, Nat.succ fuel =>
    match p.allEdges idI t with
    | none => findDistLoop p idI idJ (t + 1) fuel
    | some spot_i =>
      match p.allEdges idJ t with
      | none => findDistLoop p idI idJ (t + 1) fuel
      | some spot_j =>
        let si := p.allSpots spot_i
        let sj := p.allSpots spot_j
        let dist := euclidean si sj
        let center : ℚ × ℚ × ℚ :=
          ((si.x + sj.x) / 2, (si.y + sj.y) / 2, (si.z + sj.z) / 2)
        let n_normal := normalize (si.x - sj.x, si.y - sj.y, si.z - sj.z)
        let rest := findDistLoop p idI idJ (t + 1) fuel
        ⟨dist :: rest.sl, center.1 :: rest.cx, center.2.1 :: rest.cy,
          center.2.2 :: rest.cz, n_normal.1 :: rest.nx, n_normal.2.1 :: rest.ny,
          n_normal.2.2 :: rest.nz, t :: rest.time⟩

/-- Embedding of `TrackPairer.findDist` (utils.py lines 619-675).  A
non-positive overlap window returns the bare `return` (`None`); the
claims' preconditions always supply both track ids, so the lookup-failure
branch (a `KeyError` in the source) is collapsed into `none` as well. -/
noncomputable def findDist (p : Pairer) (id_i id_j : ℤ) : Option FDOut :=
  match lookupTrack p id_i, lookupTrack p id_j with
  | some trackI, some trackJ =>
    let start := max trackI.t_i trackJ.t_i
    let stop := min trackI.t_f trackJ.t_f
    if stop - start ≤ 0 then none
    else some (findDistLoop p trackI.id trackJ.id start (stop - start).toNat)
  | _, _ => none

/-- The `while t <= t_f` loop of `findTrackInfo` (utils.py lines
600-613), collecting `maxInt`, `contrast` and `diam` of the spot mapped
at each covered time. -/
def findTrackInfoLoop (edges : ℤ → ℤ → Option ℤ) (spots : ℤ → Spot) (idT : ℤ) :
    ℤ → ℕ → List ℚ × List ℚ × List ℚ
  | _, 0 => ([], [], [])
  | t, Nat.succ fuel =>
    match edges idT t with
    | none => findTrackInfoLoop edges spots idT (t + 1) fuel
    | some spotID =>
      let s := spots spotID
      let rest := findTrackInfoLoop edges spots idT (t + 1) fuel
      (s.maxInt :: rest.1, s.contrast :: rest.2.1, s.diam :: rest.2.2)

/-- Embedding of `TrackPairer.findTrackInfo` (utils.py lines 598-616):
mean diameter, contrast and max intensity of the spots visited by a
track; `(0, 0, 0)` when no time in `[t_i, t_f]` has a mapped spot. -/
def findTrackInfo (edges : ℤ → ℤ → Option ℤ) (spots : ℤ → Spot)
    (trk : Track) : ℚ × ℚ × ℚ :=
  let r := findTrackInfoLoop edges spots trk.id trk.t_i ((trk.t_f - trk.t_i + 1).toNat)
  if r.2.2.length < 1 then (0, 0, 0)
  else (meanQ r.2.2, meanQ r.2.1, meanQ r.1)

/-- Embedding of `TrackPairer.track_dist2border` (utils.py lines
530-538): distance of a mean track position to the closest of the four
borders. -/
def track_dist2border (p : Pairer) (x y : ℚ) : ℚ :=
  min (min (min (y - p.top) (p.bottom - y)) (x - p.left)) (p.right - x)

/-- Embedding of the filtering stage of `TrackPairer.getAllTracks`
(utils.py lines 541-581).  `rows` are the parsed `track_general` rows in
file order; each row's photometric fields are overwritten from
`findTrackInfo`, then the border filter (`dist2border <= 0`) and the
track-duration filter are applied; survivors enter `allTracks` in order.
The console log lines are dropped. -/
def getAllTracks (p : Pairer) (rows : List Track) : List Track :=
  rows.filterMap (fun row =>
    let info := findTrackInfo p.allEdges p.allSpots row
    let tr : Track :=
      { row with
        diameter := info.1
        contrast := info.2.1
        intensity := info.2.2 }
    if track_dist2border p tr.x tr.y ≤ 0 then none
    else if tr.duration < p.cfg.min_overlap then none
    else some tr)

/-- Construction of the `cell` record for a surviving ordered pair
(utils.py lines 726-748).  The `findCong` fallback 0 is unreachable
because of the two-sample guard (claim C9). -/
noncomputable def mkCell (p : Pairer) (framerate : ℚ) (myTrack nbr : Track)
    (r : FDOut) : Cell :=
  { centID_i := myTrack.id
    centID_j := nbr.id
    t_overlap := min myTrack.t_f nbr.t_f - max myTrack.t_i nbr.t_i
    sl_i := r.sl.headI
    sl_f := r.sl.getLastD 0
    sl_max := listMax r.sl
    sl_min := listMin r.sl
    center := (meanQ r.cx, meanQ r.cy, meanQ r.cz)
    center_stdev :=
      Real.sqrt ((stdevQ r.cx) ^ 2 + (stdevQ r.cy) ^ 2 + (stdevQ r.cz) ^ 2)
    normal_stdev :=
      Real.sqrt ((stdevR r.nx) ^ 2 + (stdevR r.ny) ^ 2 + (stdevR r.nz) ^ 2)
    t_cong := (((findCong r.time r.sl (p.cfg.maxcongdist : ℝ)).getD 0 : ℕ) : ℚ) *
      framerate
    contrast := (myTrack.contrast + nbr.contrast) / 2
    intensity := (myTrack.intensity + nbr.intensity) / 2
    diameter := (myTrack.diameter + nbr.diameter) / 2
    dist2border := none }

/-- One iteration of the double loop of `TrackPairer.findNeighbors`
(utils.py lines 697-748) for the ordered pair `(myTrack, nbr)`: the
filter cascade followed by construction of the `cell`.  The `None`
branch of `findDist` corresponds to a `TypeError` on tuple unpacking in
the source; it is unreachable whenever `min_overlap > 0` because stage 3
then guarantees a positive overlap window. -/
noncomputable def pairStep (p : Pairer) (framerate : ℚ) (myTrack nbr : Track) :
    Option Cell :=
  if nbr.duration < p.cfg.min_overlap then none
  else if myTrack.id = nbr.id then none
  else if ((min myTrack.t_f nbr.t_f - max myTrack.t_i nbr.t_i : ℤ) : ℚ) <
      p.cfg.min_overlap then none
  else
    match findDist p myTrack.id nbr.id with
    | none => none
    | some r =>
      if r.sl.length < 2 then none
      else if meanR r.sl > (p.cfg.max_dist : ℝ) then none
      else if listMin r.sl > (p.cfg.min_dist : ℝ) then none
      else some (mkCell p framerate myTrack nbr r)

/-- Embedding of `TrackPairer.cell_dist2border` (utils.py lines
677-688): fill in each cell's distance from its center to the closest
border. -/
def cell_dist2border (p : Pairer) (c : Cell) : Cell :=
  { c with dist2border := some (min (min (min (c.center.2.1 - p.top)
      (p.bottom - c.center.2.1)) (c.center.1 - p.left)) (p.right - c.center.1)) }

/-- Embedding of the double loop of `TrackPairer.findNeighbors` (utils.py
lines 690-750): every ordered pair of tracks from `allTracks` (in
dictionary order) is run through the cascade, and `cell_dist2border` is
applied to all accumulated cells at the end. -/
noncomputable def findNeighbors (p : Pairer) (framerate : ℚ) : List Cell :=
  (p.trackList.flatMap (fun myTrack =>
    p.trackList.filterMap (fun nbr => pairStep p framerate myTrack nbr))).map
    (cell_dist2border p)

/-- The row filter applied by `pair` (utils.py line 902) to the
prediction table: keep only rows with `centID_j > centID_i`. -/
def canonicalRows (cells : List Cell) : List Cell :=
  cells.filter (fun c => c.centID_i < c.centID_j)

/-- Column order of the data frame built by `cell2df` (utils.py lines
842-872): pandas preserves the insertion order of the dictionary keys. -/
def cell2dfColumns : List String :=
  ["center_stdev", "normal_stdev", "sl_f", "sl_i", "sl_max", "sl_min",
   "t_cong", "t_overlap", "intensity", "diameter", "contrast",
   "centID_i", "centID_j"]

/-- The data frame produced by `cell2df`, one list per column, row order
following the input cell order. -/
structure CellDF where
  center_stdev : List ℝ
  normal_stdev : List ℝ
  sl_f : List ℝ
  sl_i : List ℝ
  sl_max : List ℝ
  sl_min : List ℝ
  t_cong : List ℚ
  t_overlap : List ℤ
  intensity : List ℚ
  diameter : List ℚ
  contrast : List ℚ
  centID_i : List ℤ
  centID_j : List ℤ

/-- Embedding of `sklearn.preprocessing.MinMaxScaler.fit_transform` on a
single column: scale into `[0,1]` by the observed min and max; sklearn
replaces a zero range by 1 (`handle_zeros_in_scale`), so a constant
column maps to all zeros. -/
def minmaxScale (l : List ℚ) : List ℚ :=
  match l.min?, l.max? with
  | some m, some M =>
    let scale := if M - m = 0 then 1 else M - m
    l.map (fun v => (v - m) / scale)
  | _, _ => []

/-- Specification helper for `findDist`: the Euclidean distance recorded
at a time where both tracks have a mapped spot (junk value 0 elsewhere;
such times never occur in the characterization below). -/
noncomputable def distAt (p : Pairer) (idI idJ t : ℤ) : ℝ :=
  match p.allEdges idI t, p.allEdges idJ t with
  | some si, some sj => euclidean (p.allSpots si) (p.allSpots sj)
  | _, _ => 0

/-- Specification helper for `findDist`: the midpoint of the two spot
positions recorded at a valid time. -/
def centerAt (p : Pairer) (idI idJ t : ℤ) : ℚ × ℚ × ℚ :=
  match p.allEdges idI t, p.allEdges idJ t with
  | some si, some sj =>
    (((p.allSpots si).x + (p.allSpots sj).x) / 2,
     ((p.allSpots si).y + (p.allSpots sj).y) / 2,
     ((p.allSpots si).z + (p.allSpots sj).z) / 2)
  | _, _ => (0, 0, 0)

/-- Specification helper for `findDist`: the unit-normalized difference
vector (position of track `i` minus position of track `j`) recorded at a
valid time. -/
noncomputable def normalAt (p : Pairer) (idI idJ t : ℤ) : ℝ × ℝ × ℝ :=
  match p.allEdges idI t, p.allEdges idJ t with
  | some si, some sj =>
    normalize ((p.allSpots si).x - (p.allSpots sj).x,
      (p.allSpots si).y - (p.allSpots sj).y,
      (p.allSpots si).z - (p.allSpots sj).z)
  | _, _ => (0, 0, 0)

/-- The integer times in `[start, start + n)` at which both tracks have a
mapped spot, in increasing order. -/
def validTimes (p : Pairer) (idI idJ : ℤ) (start : ℤ) (n : ℕ) : List ℤ :=
  ((List.range n).map (fun k : ℕ => start + (k : ℤ))).filter
    (fun u => (p.allEdges idI u).isSome && (p.allEdges idJ u).isSome)

/-- Canonical form of a `findDist` result: every output sequence is the
image of the valid-time list under the corresponding per-time value. -/
noncomputable def fdAssemble (p : Pairer) (idI idJ : ℤ) (ts : List ℤ) : FDOut :=
  ⟨ts.map (distAt p idI idJ),
   ts.map (fun t => (centerAt p idI idJ t).1),
   ts.map (fun t => (centerAt p idI idJ t).2.1),
   ts.map (fun t => (centerAt p idI idJ t).2.2),
   ts.map (fun t => (normalAt p idI idJ t).1),
   ts.map (fun t => (normalAt p idI idJ t).2.1),
   ts.map (fun t => (normalAt p idI idJ t).2.2),
   ts⟩

theorem validTimes_succ (p : Pairer) (idI idJ : ℤ) (t : ℤ) (fuel : ℕ) :
    validTimes p idI idJ t (fuel + 1) =
      if ((p.allEdges idI t).isSome && (p.allEdges idJ t).isSome) = true
      then t :: validTimes p idI idJ (t + 1) fuel
      else validTimes p idI idJ (t + 1) fuel := by
  unfold validTimes
  rw [List.range_succ_eq_map, List.map_cons, List.map_map]
  have hmap : (List.range fuel).map ((fun k : ℕ => t + (k : ℤ)) ∘ Nat.succ) =
      (List.range fuel).map (fun k : ℕ => (t + 1) + (k : ℤ)) := by
    refine List.map_congr_left fun k _ => ?_
    simp only [Function.comp_apply]
    push_cast
    ring
  rw [hmap, List.filter_cons]
  simp

theorem mem_validTimes (p : Pairer) (idI idJ start : ℤ) (n : ℕ) (t : ℤ) :
    t ∈ validTimes p idI idJ start n ↔
      start ≤ t ∧ t < start + n ∧ (p.allEdges idI t).isSome = true ∧
        (p.allEdges idJ t).isSome = true := by
  unfold validTimes
  simp only [List.mem_filter, List.mem_map, List.mem_range, Bool.and_eq_true]
  constructor
  · rintro ⟨⟨k, hk, rfl⟩, h1, h2⟩
    exact ⟨by omega, by omega, h1, h2⟩
  · rintro ⟨h1, h2, h3, h4⟩
    exact ⟨⟨(t - start).toNat, by omega, by omega⟩, h3, h4⟩

/-- Characterization of the `findDist` loop: it produces exactly the
canonical parallel sequences over the valid times. -/
theorem findDistLoop_eq (p : Pairer) (idI idJ : ℤ) :
    ∀ (fuel : ℕ) (t : ℤ),
      findDistLoop p idI idJ t fuel =
        fdAssemble p idI idJ (validTimes p idI idJ t fuel) := by
  intro fuel
  induction fuel with
  | zero => intro t; simp [findDistLoop, fdAssemble, validTimes]
  | succ n ih =>
    intro t
    rw [validTimes_succ]
    cases h1 : p.allEdges idI t with
    | none =>
      simp only [findDistLoop, h1, Option.isSome_none, Bool.false_and,
        Bool.false_eq_true, if_false]
      exact ih (t + 1)
    | some si =>
      cases h2 : p.allEdges idJ t with
      | none =>
        simp only [findDistLoop, h1, h2, Option.isSome_none, Option.isSome_some,
          Bool.true_and, Bool.false_eq_true, if_false]
        exact ih (t + 1)
      | some sj =>
        simp only [findDistLoop, h1, h2, Option.isSome_some, Bool.true_and,
          if_true, ih (t + 1), fdAssemble, List.map_cons]
        simp [FDOut.mk.injEq, distAt, centerAt, normalAt, h1, h2]

/-- Claim C4.  For two track ids present in the track dictionary:
when the overlap window `[max(startI, startJ), min(stopI, stopJ))` has
non-positive length, `findDist` returns the distinct no-overlap signal
(`None`); when it has positive length, `findDist` returns parallel
sequences of equal length whose entries are, for exactly those integer
times in the window at which both tracks have a mapped spot (in order),
the Euclidean distance between the two spot positions, the midpoint of
the two positions, and the unit-normalized difference vector
(position I minus position J); times lacking a mapped spot on either
side contribute no entry to any sequence. -/
theorem findDist_overlap_window_contract (p : Pairer) (id_i id_j : ℤ)
    (trackI trackJ : Track) (hI : lookupTrack p id_i = some trackI)
    (hJ : lookupTrack p id_j = some trackJ) :
    (min trackI.t_f trackJ.t_f - max trackI.t_i trackJ.t_i ≤ 0 →
      findDist p id_i id_j = none) ∧
    (0 < min trackI.t_f trackJ.t_f - max trackI.t_i trackJ.t_i →
      ∃ r : FDOut, findDist p id_i id_j = some r ∧
        r.time = validTimes p trackI.id trackJ.id (max trackI.t_i trackJ.t_i)
          (min trackI.t_f trackJ.t_f - max trackI.t_i trackJ.t_i).toNat ∧
        (∀ t : ℤ, t ∈ r.time ↔
          max trackI.t_i trackJ.t_i ≤ t ∧ t < min trackI.t_f trackJ.t_f ∧
            (p.allEdges trackI.id t).isSome = true ∧
            (p.allEdges trackJ.id t).isSome = true) ∧
        r.sl = r.time.map (distAt p trackI.id trackJ.id) ∧
        r.cx = r.time.map (fun t => (centerAt p trackI.id trackJ.id t).1) ∧
        r.cy = r.time.map (fun t => (centerAt p trackI.id trackJ.id t).2.1) ∧
        r.cz = r.time.map (fun t => (centerAt p trackI.id trackJ.id t).2.2) ∧
        r.nx = r.time.map (fun t => (normalAt p trackI.id trackJ.id t).1) ∧
        r.ny = r.time.map (fun t => (normalAt p trackI.id trackJ.id t).2.1) ∧
        r.nz = r.time.map (fun t => (normalAt p trackI.id trackJ.id t).2.2) ∧
        r.sl.length = r.time.length ∧ r.cx.length = r.time.length ∧
        r.cy.length = r.time.length ∧ r.cz.length = r.time.length ∧
        r.nx.length = r.time.length ∧ r.ny.length = r.time.length ∧
        r.nz.length = r.time.length) := by
  constructor
  · intro h
    simp only [findDist, hI, hJ]
    rw [if_pos h]
  · intro h
    simp only [findDist, hI, hJ]
    rw [if_neg (by omega)]
    refine ⟨_, rfl, ?_⟩
    rw [findDistLoop_eq]
    refine ⟨rfl, ?_, rfl, rfl, rfl, rfl, rfl, rfl, rfl, ?_, ?_, ?_, ?_, ?_, ?_, ?_⟩
    · intro t
      simp only [fdAssemble]
      rw [mem_validTimes]
      constructor
      · rintro ⟨h1, h2, h3, h4⟩
        exact ⟨h1, by omega, h3, h4⟩
      · rintro ⟨h1, h2, h3, h4⟩
        exact ⟨h1, by omega, h3, h4⟩
    all_goals simp [fdAssemble]

/-- Concrete spot used by the witness scenarios: position `(5,5,5)`,
diameter 1, max intensity 10, contrast 2. -/
def spotEx : Spot := ⟨5, 5, 5, 1, 10, 2⟩

/-- Concrete per-track time map: tracks 1 and 2 both map every time in
`[0,3]` to spot id 7. -/
def edgesEx : ℤ → ℤ → Option ℤ := fun i t =>
  if (i = 1 ∨ i = 2) ∧ (0 ≤ t ∧ t ≤ 3) then some 7 else none

/-- Concrete track 1: spans times `[0,3]`, duration 3, mean position
`(50,50)`. -/
def trackA : Track := ⟨1, 50, 50, 5, 0, 3, 3, 0, 0, 0⟩

/-- Concrete track 2: identical geometry to track 1. -/
def trackB : Track := ⟨2, 50, 50, 5, 0, 3, 3, 0, 0, 0⟩

/-- Concrete thresholds: `maxdist 11`, `mindist 4`, `maxcongdist 4`,
`minoverlap 2`. -/
def cfgEx : Config := initPairer 11 4 4 2

/-- Concrete pairer state for the witness scenarios: a 100 by 100 field,
constant spot lookup, the time map above, tracks 1 and 2. -/
def pEx : Pairer :=
  ⟨cfgEx, 0, 100, 0, 100, fun _ => spotEx, edgesEx, [trackA, trackB]⟩

/-- Witness for claim C4 at the concrete state: tracks 1 and 2 overlap on
the positive window `[0, 3)`. -/
theorem findDist_overlap_window_contract_witness :
    ∃ r : FDOut, findDist pEx 1 2 = some r ∧
      r.time = validTimes pEx trackA.id trackB.id (max trackA.t_i trackB.t_i)
        (min trackA.t_f trackB.t_f - max trackA.t_i trackB.t_i).toNat ∧
      (∀ t : ℤ, t ∈ r.time ↔
        max trackA.t_i trackB.t_i ≤ t ∧ t < min trackA.t_f trackB.t_f ∧
          (pEx.allEdges trackA.id t).isSome = true ∧
          (pEx.allEdges trackB.id t).isSome = true) ∧
      r.sl = r.time.map (distAt pEx trackA.id trackB.id) ∧
      r.cx = r.time.map (fun t => (centerAt pEx trackA.id trackB.id t).1) ∧
      r.cy = r.time.map (fun t => (centerAt pEx trackA.id trackB.id t).2.1) ∧
      r.cz = r.time.map (fun t => (centerAt pEx trackA.id trackB.id t).2.2) ∧
      r.nx = r.time.map (fun t => (normalAt pEx trackA.id trackB.id t).1) ∧
      r.ny = r.time.map (fun t => (normalAt pEx trackA.id trackB.id t).2.1) ∧
      r.nz = r.time.map (fun t => (normalAt pEx trackA.id trackB.id t).2.2) ∧
      r.sl.length = r.time.length ∧ r.cx.length = r.time.length ∧
      r.cy.length = r.time.length ∧ r.cz.length = r.time.length ∧
      r.nx.length = r.time.length ∧ r.ny.length = r.time.length ∧
      r.nz.length = r.time.length :=
  (findDist_overlap_window_contract pEx 1 2 trackA trackB rfl rfl).2 (by decide)

/-- A successful `findDist` result has its distance list parallel to its
time list. -/
theorem findDist_parallel (p : Pairer) (i j : ℤ) (r : FDOut)
    (h : findDist p i j = some r) : r.sl.length = r.time.length := by
  unfold findDist at h
  cases hI : lookupTrack p i with
  | none => rw [hI] at h; simp at h
  | some trackI =>
    cases hJ : lookupTrack p j with
    | none => rw [hI, hJ] at h; simp at h
    | some trackJ =>
      rw [hI, hJ] at h
      simp only at h
      split_ifs at h with hw
      rw [Option.some.injEq] at h
      subst h
      rw [findDistLoop_eq]
      simp [fdAssemble]

/-- Claim C9.  `findCong` reads `time[0]` unconditionally, so the empty
input fails (an `IndexError` in the source, `none` here) instead of
returning 0; but under the cascade's guard that at least two valid
samples exist, the failure branch is unreachable: any `findDist` result
with at least two distances has a nonempty time list and `findCong`
succeeds on it. -/
theorem findCong_empty_input_fails :
    (∀ (dist : List ℚ) (θ : ℚ), findCong ([] : List ℤ) dist θ = none) ∧
    (∀ (p : Pairer) (i j : ℤ) (r : FDOut) (θ : ℝ),
      findDist p i j = some r → 2 ≤ r.sl.length →
      (findCong r.time r.sl θ).isSome = true) := by
  constructor
  · intro dist θ
    rfl
  · intro p i j r θ hfd hlen
    have hpar := findDist_parallel p i j r hfd
    cases htime : r.time with
    | nil =>
      rw [htime] at hpar
      simp only [List.length_nil] at hpar
      omega
    | cons t0 ts => simp [findCong]

/-- A concrete successful `findDist` result, used by the witness below. -/
noncomputable def rEx : FDOut := fdAssemble pEx 1 2 (validTimes pEx 1 2 0 3)

theorem findDist_pEx_eq : findDist pEx 1 2 = some rEx := by
  have h1 : findDist pEx 1 2 = some (findDistLoop pEx trackA.id trackB.id
      (max trackA.t_i trackB.t_i)
      (min trackA.t_f trackB.t_f - max trackA.t_i trackB.t_i).toNat) := rfl
  rw [h1, findDistLoop_eq]
  rfl

/-- Witness for claim C9: at the concrete state the guarded `findCong`
call succeeds. -/
theorem findCong_empty_input_fails_witness :
    (findCong rEx.time rEx.sl (4 : ℝ)).isSome = true :=
  findCong_empty_input_fails.2 pEx 1 2 rEx 4 findDist_pEx_eq
    (by show 2 ≤ ((validTimes pEx 1 2 0 3).map (distAt pEx 1 2)).length
        rw [List.length_map]
        decide)

theorem findTrackInfoLoop_all_none (edges : ℤ → ℤ → Option ℤ)
    (spots : ℤ → Spot) (idT : ℤ) :
    ∀ (n : ℕ) (t : ℤ), (∀ k : ℕ, k < n → edges idT (t + k) = none) →
      findTrackInfoLoop edges spots idT t n = ([], [], []) := by
  intro n
  induction n with
  | zero => intro t _; rfl
  | succ m ih =>
    intro t hnone
    have h0 : edges idT t = none := by
      have := hnone 0 (by omega)
      simpa using this
    simp only [findTrackInfoLoop, h0]
    exact ih (t + 1) (fun k hk => by
      have := hnone (k + 1) (by omega)
      rw [show t + 1 + (k : ℤ) = t + ((k : ℕ) + 1 : ℕ) from by push_cast; ring]
      exact this)

/-- Claim C10.  A track whose per-track time map has no mapped spot at
any integer time in `[t_i, t_f]` gets exactly `(0, 0, 0)` for diameter,
contrast and intensity from `findTrackInfo` instead of failing, and,
when it passes the border and duration filters, it enters the surviving
track list with all three photometric features equal to zero. -/
theorem findTrackInfo_no_spots_zero (edges : ℤ → ℤ → Option ℤ)
    (spots : ℤ → Spot) (row : Track)
    (hnone : ∀ t : ℤ, row.t_i ≤ t → t ≤ row.t_f → edges row.id t = none) :
    findTrackInfo edges spots row = (0, 0, 0) ∧
    (∀ (p : Pairer) (rows : List Track), p.allEdges = edges → p.allSpots = spots →
      row ∈ rows → ¬ track_dist2border p row.x row.y ≤ 0 →
      ¬ row.duration < p.cfg.min_overlap →
      { row with diameter := 0, contrast := 0, intensity := 0 } ∈
        getAllTracks p rows) := by
  have hloop : findTrackInfoLoop edges spots row.id row.t_i
      ((row.t_f - row.t_i + 1).toNat) = ([], [], []) := by
    apply findTrackInfoLoop_all_none
    intro k hk
    exact hnone (row.t_i + k) (by omega) (by omega)
  have hzero : findTrackInfo edges spots row = (0, 0, 0) := by
    unfold findTrackInfo
    rw [hloop]
    simp
  refine ⟨hzero, ?_⟩
  intro p rows hedges hspots hmem hborder hdur
  unfold getAllTracks
  rw [List.mem_filterMap]
  refine ⟨row, hmem, ?_⟩
  simp only [hedges, hspots, hzero, if_neg hborder, if_neg hdur]

/-- Concrete track with no mapped spots: id 5 has no entries in
`edgesEx`; its parsed photometric fields are nonzero to show they get
overwritten. -/
def trackC : Track := ⟨5, 50, 50, 5, 0, 3, 3, 1, 2, 3⟩

/-- Witness for claim C10 at the concrete state. -/
theorem findTrackInfo_no_spots_zero_witness :
    findTrackInfo edgesEx (fun _ => spotEx) trackC = (0, 0, 0) ∧
    { trackC with diameter := 0, contrast := 0, intensity := 0 } ∈
      getAllTracks pEx [trackC] := by
  have h := findTrackInfo_no_spots_zero edgesEx (fun _ => spotEx) trackC
    (by intro t h1 h2
        show (if ((5 : ℤ) = 1 ∨ (5 : ℤ) = 2) ∧ (0 ≤ t ∧ t ≤ 3)
          then some 7 else none) = none
        rw [if_neg]
        rintro ⟨h5, -⟩
        rcases h5 with h5 | h5 <;> exact absurd h5 (by decide))
  exact ⟨h.1, h.2 pEx [trackC] rfl rfl (by simp)
    (by norm_num [track_dist2border, pEx, trackC, min_def])
    (by show ¬ (3 : ℚ) < 2; norm_num)⟩

/-- A surviving cell records exactly the ordered pair of track ids it was
built from. -/
theorem pairStep_ids (p : Pairer) (fr : ℚ) (a b : Track) (c : Cell)
    (h : pairStep p fr a b = some c) :
    c.centID_i = a.id ∧ c.centID_j = b.id := by
  unfold pairStep at h
  split_ifs at h
  cases hfd : findDist p a.id b.id with
  | none => rw [hfd] at h; simp at h
  | some r =>
    rw [hfd] at h
    simp only at h
    split_ifs at h
    rw [Option.some.injEq] at h
    subst h
    exact ⟨rfl, rfl⟩

/-- The ids of surviving tracks all come from rows passing the filters of
`getAllTracks`. -/
theorem getAllTracks_id_mem (p : Pairer) (rows : List Track) (tr : Track)
    (h : tr ∈ getAllTracks p rows) :
    ∃ row ∈ rows, row.id = tr.id ∧
      ¬ track_dist2border p row.x row.y ≤ 0 := by
  unfold getAllTracks at h
  rw [List.mem_filterMap] at h
  obtain ⟨row, hmem, heq⟩ := h
  simp only at heq
  split_ifs at heq with h1 h2
  rw [Option.some.injEq] at heq
  subst heq
  exact ⟨row, hmem, rfl, h1⟩

/-- Claim C7.  A track whose mean position has distance at most 0 to the
nearest border — including exactly 0, i.e. a mean position exactly on the
border — is excluded by `getAllTracks` before any pairing and never
appears in a pair candidate produced by `findNeighbors`. -/
theorem border_track_never_paired (p : Pairer) (rows : List Track) (row : Track)
    (hlist : p.trackList = getAllTracks p rows) (hrow : row ∈ rows)
    (hborder : track_dist2border p row.x row.y ≤ 0)
    (hnodup : (rows.map Track.id).Nodup) (framerate : ℚ) :
    (∀ tr ∈ p.trackList, tr.id ≠ row.id) ∧
    (∀ c ∈ findNeighbors p framerate,
      c.centID_i ≠ row.id ∧ c.centID_j ≠ row.id) := by
  have hids : ∀ tr ∈ p.trackList, tr.id ≠ row.id := by
    intro tr htr heq
    rw [hlist] at htr
    obtain ⟨row', hmem', hid', hb'⟩ := getAllTracks_id_mem p rows tr htr
    have : row' = row := by
      have hinj := List.inj_on_of_nodup_map hnodup
      exact hinj hmem' hrow (by rw [hid', heq])
    subst this
    exact hb' hborder
  refine ⟨hids, ?_⟩
  intro c hc
  unfold findNeighbors at hc
  rw [List.mem_map] at hc
  obtain ⟨c', hc', rfl⟩ := hc
  rw [List.mem_flatMap] at hc'
  obtain ⟨myTrack, hmyTrack, hc''⟩ := hc'
  rw [List.mem_filterMap] at hc''
  obtain ⟨nbr, hnbr, hps⟩ := hc''
  obtain ⟨hi, hj⟩ := pairStep_ids p framerate myTrack nbr c' hps
  constructor
  · show (cell_dist2border p c').centID_i ≠ row.id
    simp only [cell_dist2border]
    rw [hi]
    exact hids myTrack hmyTrack
  · show (cell_dist2border p c').centID_j ≠ row.id
    simp only [cell_dist2border]
    rw [hj]
    exact hids nbr hnbr

/-- Concrete track whose mean position lies exactly on the left border
(`x = 0`, so the distance to the border is exactly 0). -/
def trackBorder : Track := ⟨3, 0, 50, 5, 0, 3, 3, 0, 0, 0⟩

/-- Base pairer state for the border scenario (track list filled below). -/
def p7base : Pairer := ⟨cfgEx, 0, 100, 0, 100, fun _ => spotEx, edgesEx, []⟩

/-- Rows of the border scenario: two interior tracks and the border
track. -/
def rows7 : List Track := [trackA, trackB, trackBorder]

/-- Pairer state whose track list is the filtered output of
`getAllTracks` on the border-scenario rows. -/
def p7 : Pairer := { p7base with trackList := getAllTracks p7base rows7 }

/-- Witness for claim C7: the on-border track 3 is excluded and no pair
candidate mentions it. -/
theorem border_track_never_paired_witness :
    (∀ tr ∈ p7.trackList, tr.id ≠ trackBorder.id) ∧
    (∀ c ∈ findNeighbors p7 1,
      c.centID_i ≠ trackBorder.id ∧ c.centID_j ≠ trackBorder.id) :=
  border_track_never_paired p7 rows7 trackBorder rfl
    (by simp [rows7])
    (by norm_num [track_dist2border, p7, p7base, trackBorder, min_def])
    (by show ([1, 2, 3] : List ℤ).Nodup
        decide) 1

/-- Embedding of `cell2df` (utils.py lines 842-880): one row per cell in
input order; after assembling the raw columns, the `contrast` and
`intensity` columns are replaced by their min-max-scaled versions. -/
def cell2df (cells : List Cell) : CellDF where
  center_stdev := cells.map (fun c => c.center_stdev)
  normal_stdev := cells.map (fun c => c.normal_stdev)
  sl_f := cells.map (fun c => c.sl_f)
  sl_i := cells.map (fun c => c.sl_i)
  sl_max := cells.map (fun c => c.sl_max)
  sl_min := cells.map (fun c => c.sl_min)
  t_cong := cells.map (fun c => c.t_cong)
  t_overlap := cells.map (fun c => c.t_overlap)
  intensity := minmaxScale (cells.map (fun c => c.intensity))
  diameter := cells.map (fun c => c.diameter)
  contrast := minmaxScale (cells.map (fun c => c.contrast))
  centID_i := cells.map (fun c => c.centID_i)
  centID_j := cells.map (fun c => c.centID_j)

theorem foldl_min_le_init (l : List ℚ) : ∀ a : ℚ, l.foldl min a ≤ a := by
  induction l with
  | nil => intro a; simp
  | cons x xs ih =>
    intro a
    simpa using le_trans (ih (min a x)) (min_le_left a x)

theorem foldl_min_le_mem (l : List ℚ) : ∀ (a b : ℚ), b ∈ l → l.foldl min a ≤ b := by
  induction l with
  | nil => intro a b hb; simp at hb
  | cons x xs ih =>
    intro a b hb
    rcases List.mem_cons.mp hb with rfl | hb
    · simpa using le_trans (foldl_min_le_init xs (min a b)) (min_le_right a b)
    · exact ih (min a x) b hb

theorem foldl_min_mem (l : List ℚ) : ∀ a : ℚ, l.foldl min a = a ∨ l.foldl min a ∈ l := by
  induction l with
  | nil => intro a; left; rfl
  | cons x xs ih =>
    intro a
    rcases ih (min a x) with h | h
    · rcases min_choice a x with hax | hax
      · left; rw [List.foldl_cons, h, hax]
      · right
        rw [List.foldl_cons, h, hax]
        exact List.mem_cons_self _ _
    · right
      exact List.mem_cons_of_mem _ (by simpa using h)

theorem foldl_max_le_init (l : List ℚ) : ∀ a : ℚ, a ≤ l.foldl max a := by
  induction l with
  | nil => intro a; simp
  | cons x xs ih =>
    intro a
    simpa using le_trans (le_max_left a x) (ih (max a x))

theorem foldl_max_le_mem (l : List ℚ) : ∀ (a b : ℚ), b ∈ l → b ≤ l.foldl max a := by
  induction l with
  | nil => intro a b hb; simp at hb
  | cons x xs ih =>
    intro a b hb
    rcases List.mem_cons.mp hb with rfl | hb
    · simpa using le_trans (le_max_right a b) (foldl_max_le_init xs (max a b))
    · exact ih (max a x) b hb

theorem foldl_max_mem (l : List ℚ) : ∀ a : ℚ, l.foldl max a = a ∨ l.foldl max a ∈ l := by
  induction l with
  | nil => intro a; left; rfl
  | cons x xs ih =>
    intro a
    rcases ih (max a x) with h | h
    · rcases max_choice a x with hax | hax
      · left; rw [List.foldl_cons, h, hax]
      · right
        rw [List.foldl_cons, h, hax]
        exact List.mem_cons_self _ _
    · right
      exact List.mem_cons_of_mem _ (by simpa using h)

theorem min?_spec (l : List ℚ) (m : ℚ) (h : l.min? = some m) :
    m ∈ l ∧ ∀ b ∈ l, m ≤ b := by
  cases l with
  | nil => simp [List.min?] at h
  | cons x xs =>
    simp only [List.min?, Option.some.injEq] at h
    subst h
    constructor
    · rcases foldl_min_mem xs x with h | h
      · rw [h]; exact List.mem_cons_self _ _
      · exact List.mem_cons_of_mem _ h
    · intro b hb
      rcases List.mem_cons.mp hb with rfl | hb
      · exact foldl_min_le_init xs b
      · exact foldl_min_le_mem xs x b hb

theorem max?_spec (l : List ℚ) (m : ℚ) (h : l.max? = some m) :
    m ∈ l ∧ ∀ b ∈ l, b ≤ m := by
  cases l with
  | nil => simp [List.max?] at h
  | cons x xs =>
    simp only [List.max?, Option.some.injEq] at h
    subst h
    constructor
    · rcases foldl_max_mem xs x with h | h
      · rw [h]; exact List.mem_cons_self _ _
      · exact List.mem_cons_of_mem _ h
    · intro b hb
      rcases List.mem_cons.mp hb with rfl | hb
      · exact foldl_max_le_init xs b
      · exact foldl_max_le_mem xs x b hb

theorem minmaxScale_length (l : List ℚ) : (minmaxScale l).length = l.length := by
  unfold minmaxScale
  cases l with
  | nil => rfl
  | cons x xs => simp [List.min?, List.max?]

/-- Claim C3, counterexample.  The `cell2df` column order is not the
claimed centID-first order: the first column is `center_stdev` and the
two id columns come last (which is why `pair` can feed the classifier
`usecols=range(11)`). -/
theorem cell2df_columns_not_claimed_order :
    cell2dfColumns ≠
      ["centID_i", "centID_j", "t_overlap", "sl_i", "sl_f", "sl_min", "sl_max",
       "center_stdev", "normal_stdev", "t_cong", "contrast", "intensity",
       "diameter"] ∧
    cell2dfColumns.head? = some "center_stdev" := by
  constructor
  · decide
  · rfl

/-- Claim C3, amended.  The feature table has exactly the thirteen
claimed columns, but in the dictionary insertion order of the source —
`center_stdev, normal_stdev, sl_f, sl_i, sl_max, sl_min, t_cong,
t_overlap, intensity, diameter, contrast, centID_i, centID_j` — with one
row per input candidate and row order matching the input candidate
order. -/
theorem cell2df_columns_and_rows (cells : List Cell) :
    cell2dfColumns = ["center_stdev", "normal_stdev", "sl_f", "sl_i", "sl_max",
      "sl_min", "t_cong", "t_overlap", "intensity", "diameter", "contrast",
      "centID_i", "centID_j"] ∧
    (cell2df cells).center_stdev = cells.map (fun c => c.center_stdev) ∧
    (cell2df cells).normal_stdev = cells.map (fun c => c.normal_stdev) ∧
    (cell2df cells).sl_f = cells.map (fun c => c.sl_f) ∧
    (cell2df cells).sl_i = cells.map (fun c => c.sl_i) ∧
    (cell2df cells).sl_max = cells.map (fun c => c.sl_max) ∧
    (cell2df cells).sl_min = cells.map (fun c => c.sl_min) ∧
    (cell2df cells).t_cong = cells.map (fun c => c.t_cong) ∧
    (cell2df cells).t_overlap = cells.map (fun c => c.t_overlap) ∧
    (cell2df cells).diameter = cells.map (fun c => c.diameter) ∧
    (cell2df cells).centID_i = cells.map (fun c => c.centID_i) ∧
    (cell2df cells).centID_j = cells.map (fun c => c.centID_j) ∧
    (cell2df cells).intensity.length = cells.length ∧
    (cell2df cells).contrast.length = cells.length := by
  refine ⟨rfl, rfl, rfl, rfl, rfl, rfl, rfl, rfl, rfl, rfl, rfl, rfl, ?_, ?_⟩
  · show (minmaxScale (cells.map (fun c => c.intensity))).length = cells.length
    rw [minmaxScale_length, List.length_map]
  · show (minmaxScale (cells.map (fun c => c.contrast))).length = cells.length
    rw [minmaxScale_length, List.length_map]

/-- Claim C5.  The aggregator's min-max normalization touches only the
`contrast` and `intensity` columns, every other column equals the raw
candidate attribute in input order; for a batch containing at least two
distinct values the normalized column attains minimum 0 and maximum 1
(every entry lies in `[0,1]`, and both endpoints occur); and a batch of
exactly one candidate does not divide by zero — the degenerate output is
0 (sklearn replaces the zero range by 1). -/
theorem cell2df_minmax_normalization :
    (∀ cells : List Cell,
      (cell2df cells).center_stdev = cells.map (fun c => c.center_stdev) ∧
      (cell2df cells).normal_stdev = cells.map (fun c => c.normal_stdev) ∧
      (cell2df cells).sl_f = cells.map (fun c => c.sl_f) ∧
      (cell2df cells).sl_i = cells.map (fun c => c.sl_i) ∧
      (cell2df cells).sl_max = cells.map (fun c => c.sl_max) ∧
      (cell2df cells).sl_min = cells.map (fun c => c.sl_min) ∧
      (cell2df cells).t_cong = cells.map (fun c => c.t_cong) ∧
      (cell2df cells).t_overlap = cells.map (fun c => c.t_overlap) ∧
      (cell2df cells).diameter = cells.map (fun c => c.diameter) ∧
      (cell2df cells).centID_i = cells.map (fun c => c.centID_i) ∧
      (cell2df cells).centID_j = cells.map (fun c => c.centID_j) ∧
      (cell2df cells).contrast = minmaxScale (cells.map (fun c => c.contrast)) ∧
      (cell2df cells).intensity = minmaxScale (cells.map (fun c => c.intensity))) ∧
    (∀ (l : List ℚ) (a b : ℚ), a ∈ l → b ∈ l → a ≠ b →
      0 ∈ minmaxScale l ∧ 1 ∈ minmaxScale l ∧
      ∀ y ∈ minmaxScale l, 0 ≤ y ∧ y ≤ 1) ∧
    (∀ x : ℚ, minmaxScale [x] = [0]) ∧
    (∀ c : Cell, (cell2df [c]).contrast = [0] ∧ (cell2df [c]).intensity = [0]) := by
  have hsingle : ∀ x : ℚ, minmaxScale [x] = [0] := by
    intro x
    simp only [minmaxScale, List.min?, List.max?, List.foldl_nil, sub_self,
      if_pos rfl, List.map_cons, List.map_nil]
    norm_num
  refine ⟨fun cells => ⟨rfl, rfl, rfl, rfl, rfl, rfl, rfl, rfl, rfl, rfl, rfl,
    rfl, rfl⟩, ?_, hsingle, fun c => ⟨hsingle c.contrast, hsingle c.intensity⟩⟩
  intro l a b ha hb hab
  cases hmin : l.min? with
  | none =>
    cases l with
    | nil => simp at ha
    | cons x xs => simp [List.min?] at hmin
  | some m =>
  cases hmax : l.max? with
  | none =>
    cases l with
    | nil => simp at ha
    | cons x xs => simp [List.max?] at hmax
  | some M =>
  obtain ⟨hm_mem, hm_le⟩ := min?_spec l m hmin
  obtain ⟨hM_mem, hM_le⟩ := max?_spec l M hmax
  have hlt : m < M := by
    rcases lt_or_eq_of_le (hm_le M hM_mem) with h | h
    · exact h
    · exfalso
      apply hab
      have h1 : a = m := le_antisymm (by rw [h]; exact hM_le a ha) (hm_le a ha)
      have h2 : b = m := le_antisymm (by rw [h]; exact hM_le b hb) (hm_le b hb)
      rw [h1, h2]
  have hne : M - m ≠ 0 := by
    intro h
    have hMm : m = M := by linarith
    exact absurd hMm (ne_of_lt hlt)
  have hscale : minmaxScale l = l.map (fun v => (v - m) / (M - m)) := by
    simp only [minmaxScale, hmin, hmax, if_neg hne]
  rw [hscale]
  refine ⟨?_, ?_, ?_⟩
  · exact List.mem_map.mpr ⟨m, hm_mem, by rw [sub_self, zero_div]⟩
  · exact List.mem_map.mpr ⟨M, hM_mem, div_self hne⟩
  · intro y hy
    obtain ⟨v, hv, rfl⟩ := List.mem_map.mp hy
    constructor
    · exact div_nonneg (by linarith [hm_le v hv]) (by linarith)
    · rw [div_le_one (by linarith)]
      linarith [hM_le v hv]

/-- Witness for claim C5: the batch `[1, 3]` normalizes with minimum 0
and maximum 1. -/
theorem cell2df_minmax_normalization_witness :
    0 ∈ minmaxScale [1, 3] ∧ 1 ∈ minmaxScale [1, 3] ∧
      ∀ y ∈ minmaxScale [1, 3], 0 ≤ y ∧ y ≤ 1 :=
  cell2df_minmax_normalization.2.1 [1, 3] 1 3 (by norm_num) (by norm_num)
    (by norm_num)

theorem euclidean_self (s : Spot) : euclidean s s = 0 := by
  simp [euclidean]

/-- Concrete pairer family over an arbitrary threshold configuration,
with the same geometry as `pEx`: two coincident tracks 1 and 2. -/
def pGen (cfg : Config) : Pairer :=
  ⟨cfg, 0, 100, 0, 100, fun _ => spotEx, edgesEx, [trackA, trackB]⟩

theorem findDist_pGen_AB (cfg : Config) :
    findDist (pGen cfg) trackA.id trackB.id =
      some (fdAssemble (pGen cfg) trackA.id trackB.id [0, 1, 2]) := by
  have h1 : findDist (pGen cfg) trackA.id trackB.id =
      some (findDistLoop (pGen cfg) trackA.id trackB.id 0 3) := rfl
  rw [h1, findDistLoop_eq]
  rfl

theorem findDist_pGen_BA (cfg : Config) :
    findDist (pGen cfg) trackB.id trackA.id =
      some (fdAssemble (pGen cfg) trackB.id trackA.id [0, 1, 2]) := by
  have h1 : findDist (pGen cfg) trackB.id trackA.id =
      some (findDistLoop (pGen cfg) trackB.id trackA.id 0 3) := rfl
  rw [h1, findDistLoop_eq]
  rfl

theorem fdAssemble_pGen_sl (cfg : Config) (i j : ℤ) (hi : i = 1 ∨ i = 2)
    (hj : j = 1 ∨ j = 2) :
    (fdAssemble (pGen cfg) i j [0, 1, 2]).sl = [0, 0, 0] := by
  have he : euclidean spotEx spotEx = 0 := euclidean_self spotEx
  rcases hi with rfl | rfl <;> rcases hj with rfl | rfl <;>
    (show [euclidean spotEx spotEx, euclidean spotEx spotEx,
        euclidean spotEx spotEx] = [0, 0, 0]
     rw [he])

theorem meanR_three_zeros : meanR [0, 0, 0] = 0 := by
  simp [meanR]

theorem listMin_three_zeros : listMin [0, 0, 0] = 0 := by
  simp [listMin]

/-- Unfolding of `pairStep` once the first three stages pass and
`findDist` returns a result. -/
theorem pairStep_findDist_some (p : Pairer) (fr : ℚ) (a b : Track) (r : FDOut)
    (hfd : findDist p a.id b.id = some r)
    (h1 : ¬ b.duration < p.cfg.min_overlap) (h2 : ¬ a.id = b.id)
    (h3 : ¬ ((min a.t_f b.t_f - max a.t_i b.t_i : ℤ) : ℚ) < p.cfg.min_overlap) :
    pairStep p fr a b =
      if r.sl.length < 2 then none
      else if meanR r.sl > (p.cfg.max_dist : ℝ) then none
      else if listMin r.sl > (p.cfg.min_dist : ℝ) then none
      else some (mkCell p fr a b r) := by
  unfold pairStep
  rw [if_neg h1, if_neg h2, if_neg h3, hfd]

/-- The identity filter: a track is never paired with itself. -/
theorem pairStep_self_none (p : Pairer) (fr : ℚ) (a : Track)
    (h1 : ¬ a.duration < p.cfg.min_overlap) :
    pairStep p fr a a = none := by
  unfold pairStep
  rw [if_neg h1, if_pos rfl]

theorem pairStep_pGen_AB (cfg : Config) (fr : ℚ) (hmo : cfg.min_overlap ≤ 3)
    (hmax : 0 ≤ cfg.max_dist) (hmin : 0 ≤ cfg.min_dist) :
    pairStep (pGen cfg) fr trackA trackB =
      some (mkCell (pGen cfg) fr trackA trackB
        (fdAssemble (pGen cfg) trackA.id trackB.id [0, 1, 2])) := by
  rw [pairStep_findDist_some (pGen cfg) fr trackA trackB _
      (findDist_pGen_AB cfg)
      (by show ¬ (3 : ℚ) < cfg.min_overlap; exact not_lt.mpr hmo)
      (by show ¬ (1 : ℤ) = 2; decide)
      (by show ¬ ((3 : ℤ) : ℚ) < cfg.min_overlap
          push_cast
          exact not_lt.mpr (by linarith)),
    fdAssemble_pGen_sl cfg trackA.id trackB.id (Or.inl rfl) (Or.inr rfl)]
  rw [if_neg (by norm_num : ¬ ([0, 0, 0] : List ℝ).length < 2),
    if_neg (by rw [meanR_three_zeros]
               exact not_lt.mpr (by exact_mod_cast hmax)),
    if_neg (by rw [listMin_three_zeros]
               exact not_lt.mpr (by exact_mod_cast hmin))]

theorem pairStep_pGen_BA (cfg : Config) (fr : ℚ) (hmo : cfg.min_overlap ≤ 3)
    (hmax : 0 ≤ cfg.max_dist) (hmin : 0 ≤ cfg.min_dist) :
    pairStep (pGen cfg) fr trackB trackA =
      some (mkCell (pGen cfg) fr trackB trackA
        (fdAssemble (pGen cfg) trackB.id trackA.id [0, 1, 2])) := by
  rw [pairStep_findDist_some (pGen cfg) fr trackB trackA _
      (findDist_pGen_BA cfg)
      (by show ¬ (3 : ℚ) < cfg.min_overlap; exact not_lt.mpr hmo)
      (by show ¬ (2 : ℤ) = 1; decide)
      (by show ¬ ((3 : ℤ) : ℚ) < cfg.min_overlap
          push_cast
          exact not_lt.mpr (by linarith)),
    fdAssemble_pGen_sl cfg trackB.id trackA.id (Or.inr rfl) (Or.inl rfl)]
  rw [if_neg (by norm_num : ¬ ([0, 0, 0] : List ℝ).length < 2),
    if_neg (by rw [meanR_three_zeros]
               exact not_lt.mpr (by exact_mod_cast hmax)),
    if_neg (by rw [listMin_three_zeros]
               exact not_lt.mpr (by exact_mod_cast hmin))]

theorem pairStep_pGen_AB_isSome (cfg : Config) (fr : ℚ)
    (hmo : cfg.min_overlap ≤ 3) (hmax : 0 ≤ cfg.max_dist)
    (hmin : 0 ≤ cfg.min_dist) :
    (pairStep (pGen cfg) fr trackA trackB).isSome = true := by
  rw [pairStep_pGen_AB cfg fr hmo hmax hmin]
  rfl

/-- Full evaluation of `findNeighbors` on the two-track state: both
orderings of the surviving pair produce a cell. -/
theorem findNeighbors_pGen_pairs (cfg : Config) (fr : ℚ)
    (hmo : cfg.min_overlap ≤ 3) (hmax : 0 ≤ cfg.max_dist)
    (hmin : 0 ≤ cfg.min_dist) :
    (findNeighbors (pGen cfg) fr).map (fun c => (c.centID_i, c.centID_j)) =
      [(1, 2), (2, 1)] := by
  have hdurA : ¬ trackA.duration < (pGen cfg).cfg.min_overlap := by
    show ¬ (3 : ℚ) < cfg.min_overlap
    exact not_lt.mpr hmo
  have hdurB : ¬ trackB.duration < (pGen cfg).cfg.min_overlap := by
    show ¬ (3 : ℚ) < cfg.min_overlap
    exact not_lt.mpr hmo
  have hAB := pairStep_pGen_AB cfg fr hmo hmax hmin
  have hBA := pairStep_pGen_BA cfg fr hmo hmax hmin
  have hAA : pairStep (pGen cfg) fr trackA trackA = none :=
    pairStep_self_none _ fr trackA hdurA
  have hBB : pairStep (pGen cfg) fr trackB trackB = none :=
    pairStep_self_none _ fr trackB hdurB
  have hlist : (pGen cfg).trackList = [trackA, trackB] := rfl
  unfold findNeighbors
  rw [hlist]
  simp only [List.flatMap_cons, List.flatMap_nil, List.filterMap_cons,
    List.filterMap_nil, hAA, hAB, hBA, hBB, List.append_nil, List.nil_append,
    List.map_cons, List.map_nil, List.cons_append, List.map_append]
  rfl

/-- Claim C2, counterexample.  At a concrete state with two surviving
tracks 1 and 2, `findNeighbors` emits a `Cell` for both orderings —
`(1,2)` and `(2,1)` — so the unordered pair yields two candidates, not
exactly one canonicalized with the smaller id first (that filtering only
happens later, in `pair`, on the prediction rows). -/
theorem findNeighbors_emits_duplicate_pair :
    (findNeighbors (pGen cfgEx) 1).map (fun c => (c.centID_i, c.centID_j)) =
      [(1, 2), (2, 1)] :=
  findNeighbors_pGen_pairs cfgEx 1 (by show (2 : ℚ) ≤ 3; norm_num)
    (by show (0 : ℚ) ≤ 11; norm_num) (by show (0 : ℚ) ≤ 4; norm_num)

/-- Claim C8, counterexample.  Constructing the pairer with
`minoverlap = 0` — an out-of-range threshold — succeeds (the constructor
just stores the value) and the run proceeds normally, producing pair
candidates, instead of failing at configuration-validation time. -/
theorem initPairer_accepts_out_of_range :
    initPairer 11 4 4 0 =
      { max_dist := 11, min_dist := 4, maxcongdist := 4, min_overlap := 0 } ∧
    (findNeighbors (pGen (initPairer 11 4 4 0)) 1).map
      (fun c => (c.centID_i, c.centID_j)) = [(1, 2), (2, 1)] :=
  ⟨rfl, findNeighbors_pGen_pairs _ 1 (by show (0 : ℚ) ≤ 3; norm_num)
    (by show (0 : ℚ) ≤ 11; norm_num) (by show (0 : ℚ) ≤ 4; norm_num)⟩

/-- Claim C8, amended.  `TrackPairer.__init__` performs no threshold
validation: any configuration, in particular every `minOverlap ≤ 0`, is
stored unchanged, and pair processing proceeds normally on such a
configuration rather than failing. -/
theorem initPairer_no_validation (mo : ℚ) (hmo : mo ≤ 0) :
    initPairer 11 4 4 mo =
      { max_dist := 11, min_dist := 4, maxcongdist := 4, min_overlap := mo } ∧
    (findNeighbors (pGen (initPairer 11 4 4 mo)) 1).map
      (fun c => (c.centID_i, c.centID_j)) = [(1, 2), (2, 1)] := by
  refine ⟨rfl, findNeighbors_pGen_pairs _ 1 ?_ ?_ ?_⟩
  · show mo ≤ 3
    linarith
  · show (0 : ℚ) ≤ 11
    norm_num
  · show (0 : ℚ) ≤ 4
    norm_num

/-- Witness for the amended claim C8 at `minOverlap = 0`. -/
theorem initPairer_no_validation_witness :
    initPairer 11 4 4 0 =
      { max_dist := 11, min_dist := 4, maxcongdist := 4, min_overlap := 0 } ∧
    (findNeighbors (pGen (initPairer 11 4 4 0)) 1).map
      (fun c => (c.centID_i, c.centID_j)) = [(1, 2), (2, 1)] :=
  initPairer_no_validation 0 (le_refl 0)

theorem euclidean_comm (s1 s2 : Spot) : euclidean s1 s2 = euclidean s2 s1 := by
  unfold euclidean
  congr 1
  push_cast
  ring

theorem distAt_comm (p : Pairer) (i j t : ℤ) : distAt p j i t = distAt p i j t := by
  unfold distAt
  cases h1 : p.allEdges i t <;> cases h2 : p.allEdges j t <;>
    simp [h1, h2, euclidean_comm]

theorem validTimes_swap (p : Pairer) (i j s : ℤ) (n : ℕ) :
    validTimes p j i s n = validTimes p i j s n := by
  unfold validTimes
  exact List.filter_congr fun t _ => by rw [Bool.and_comm]

/-- Swapping the two track ids keeps the same distance sequence: the
valid times coincide and the Euclidean distance is symmetric. -/
theorem findDist_swap (p : Pairer) (i j : ℤ) (trackI trackJ : Track)
    (hI : lookupTrack p i = some trackI) (hJ : lookupTrack p j = some trackJ)
    (r : FDOut) (hfd : findDist p i j = some r) :
    ∃ r', findDist p j i = some r' ∧ r'.sl = r.sl := by
  unfold findDist at hfd ⊢
  rw [hI, hJ] at hfd
  rw [hJ, hI]
  simp only at hfd ⊢
  rw [max_comm trackJ.t_i trackI.t_i, min_comm trackJ.t_f trackI.t_f]
  split_ifs at hfd ⊢ with hw
  rw [Option.some.injEq] at hfd
  subst hfd
  refine ⟨_, rfl, ?_⟩
  rw [findDistLoop_eq, findDistLoop_eq]
  show (validTimes p trackJ.id trackI.id _ _).map (distAt p trackJ.id trackI.id) =
    (validTimes p trackI.id trackJ.id _ _).map (distAt p trackI.id trackJ.id)
  rw [validTimes_swap]
  exact List.map_congr_left fun t _ => distAt_comm p trackI.id trackJ.id t

theorem find?_id_eq_self (l : List Track) (a : Track) :
    ∀ (_ : a ∈ l) (_ : (l.map Track.id).Nodup),
      l.find? (fun tr => tr.id = a.id) = some a := by
  induction l with
  | nil => intro ha _; simp at ha
  | cons x xs ih =>
    intro ha hnd
    rw [List.map_cons, List.nodup_cons] at hnd
    rcases List.mem_cons.mp ha with rfl | hmem
    · simp [List.find?_cons]
    · have hxa : (decide (x.id = a.id)) = false := by
        simp only [decide_eq_false_iff_not]
        intro hEq
        exact hnd.1 (hEq ▸ List.mem_map_of_mem Track.id hmem)
      simp only [List.find?_cons, hxa]
      exact ih hmem hnd.2

/-- With unique ids the dictionary lookup of a member track returns that
track. -/
theorem lookupTrack_self (p : Pairer) (a : Track) (ha : a ∈ p.trackList)
    (hnodup : (p.trackList.map Track.id).Nodup) :
    lookupTrack p a.id = some a :=
  find?_id_eq_self p.trackList a ha hnodup

/-- Survival of an ordered pair implies survival of the reversed pair,
provided the first track also satisfies the duration filter (always the
case for tracks admitted by `getAllTracks`): every cascade stage is
symmetric in the two tracks because the distance sequence is. -/
theorem pairStep_swap (p : Pairer) (fr : ℚ) (a b : Track)
    (hIa : lookupTrack p a.id = some a) (hJb : lookupTrack p b.id = some b)
    (ha : ¬ a.duration < p.cfg.min_overlap)
    (c : Cell) (h : pairStep p fr a b = some c) :
    (pairStep p fr b a).isSome = true := by
  unfold pairStep at h
  split_ifs at h with h1 h2 h3
  cases hfd : findDist p a.id b.id with
  | none => rw [hfd] at h; simp at h
  | some r =>
    rw [hfd] at h
    simp only at h
    split_ifs at h with h4 h5 h6
    obtain ⟨r', hfd', hsl⟩ := findDist_swap p a.id b.id a b hIa hJb r hfd
    rw [pairStep_findDist_some p fr b a r' hfd' ha
        (fun hh => h2 hh.symm)
        (by rw [min_comm b.t_f a.t_f, max_comm b.t_i a.t_i]; exact h3)]
    rw [if_neg (by rw [hsl]; exact h4), if_neg (by rw [hsl]; exact h5),
      if_neg (by rw [hsl]; exact h6)]
    rfl

/-- Count of cells with a given ordered id pair inside one inner
filterMap pass of the cascade. -/
theorem countP_filterMap_pairStep (p : Pairer) (fr : ℚ) (x : Track)
    (i0 j0 : ℤ) (l : List Track) :
    (l.filterMap (fun nbr => pairStep p fr x nbr)).countP
        (fun c => decide (c.centID_i = i0 ∧ c.centID_j = j0)) =
      if x.id = i0 then
        l.countP (fun nbr =>
          decide (nbr.id = j0 ∧ (pairStep p fr x nbr).isSome = true))
      else 0 := by
  induction l with
  | nil => simp
  | cons nbr tl ih =>
    cases hps : pairStep p fr x nbr with
    | none =>
      have hfm : (nbr :: tl).filterMap (fun n => pairStep p fr x n) =
          tl.filterMap (fun n => pairStep p fr x n) := by
        rw [List.filterMap_cons, hps]
      have hpred : (decide (nbr.id = j0 ∧
          (pairStep p fr x nbr).isSome = true)) = false := by
        rw [hps]
        simp
      rw [hfm, ih, List.countP_cons]
      simp only [hpred]
      by_cases hx : x.id = i0 <;> simp [hx]
    | some c =>
      obtain ⟨hci, hcj⟩ := pairStep_ids p fr x nbr c hps
      have hfm : (nbr :: tl).filterMap (fun n => pairStep p fr x n) =
          c :: tl.filterMap (fun n => pairStep p fr x n) := by
        rw [List.filterMap_cons, hps]
      rw [hfm, List.countP_cons, List.countP_cons, ih]
      by_cases hx : x.id = i0
      · rw [if_pos hx, if_pos hx]
        congr 1
        simp only [hci, hcj, hx, hps, Option.isSome_some]
        by_cases hj : nbr.id = j0 <;> simp [hj]
      · rw [if_neg hx, if_neg hx]
        simp only [hci]
        simp [hx]

theorem map_sum_single {α : Type} (l : List α) (f : α → ℕ) (a : α)
    (hnd : l.Nodup) (ha : a ∈ l) (hz : ∀ x ∈ l, x ≠ a → f x = 0) :
    (l.map f).sum = f a := by
  induction l with
  | nil => simp at ha
  | cons x xs ih =>
    rw [List.nodup_cons] at hnd
    rcases List.mem_cons.mp ha with rfl | hmem
    · simp only [List.map_cons, List.sum_cons]
      have hsum : (xs.map f).sum = 0 := by
        refine List.sum_eq_zero fun n hn => ?_
        obtain ⟨y, hy, rfl⟩ := List.mem_map.mp hn
        exact hz y (List.mem_cons_of_mem _ hy) (fun hEq => hnd.1 (hEq ▸ hy))
      rw [hsum]
      exact add_zero (f a)
    · have hxa : x ≠ a := fun hEq => hnd.1 (hEq ▸ hmem)
      simp only [List.map_cons, List.sum_cons]
      rw [hz x (List.mem_cons_self _ _) hxa,
        ih hnd.2 hmem (fun y hy hne => hz y (List.mem_cons_of_mem _ hy) hne)]
      simp

theorem countP_eq_one_unique {α : Type} (l : List α) (q : α → Bool) (a : α)
    (hnd : l.Nodup) (ha : a ∈ l) (hqa : q a = true)
    (huniq : ∀ x ∈ l, q x = true → x = a) : l.countP q = 1 := by
  induction l with
  | nil => simp at ha
  | cons x xs ih =>
    rw [List.nodup_cons] at hnd
    rw [List.countP_cons]
    rcases List.mem_cons.mp ha with rfl | hmem
    · have hzero : xs.countP q = 0 :=
        List.countP_eq_zero.mpr fun y hy hqy =>
          hnd.1 ((huniq y (List.mem_cons_of_mem _ hy) hqy) ▸ hy)
      rw [hzero, hqa]
      simp
    · have hqx : q x = false := by
        cases hqx : q x
        · rfl
        · exact absurd ((huniq x (List.mem_cons_self _ _) hqx) ▸ hmem) hnd.1
      rw [hqx]
      simp only [Bool.false_eq_true, if_false, add_zero]
      exact ih hnd.2 hmem (fun y hy h => huniq y (List.mem_cons_of_mem _ hy) h)

/-- Count of cells with a given ordered id pair in the full cascade
output: exactly one when the ordered pair survives and ids are unique. -/
theorem countP_findNeighbors (p : Pairer) (fr : ℚ) (x y : Track)
    (hx : x ∈ p.trackList) (hy : y ∈ p.trackList)
    (hnodup : (p.trackList.map Track.id).Nodup)
    (hsome : (pairStep p fr x y).isSome = true) :
    (findNeighbors p fr).countP
      (fun c => decide (c.centID_i = x.id ∧ c.centID_j = y.id)) = 1 := by
  have hnd : p.trackList.Nodup := List.Nodup.of_map _ hnodup
  have hinj := List.inj_on_of_nodup_map hnodup
  unfold findNeighbors
  rw [List.countP_map]
  rw [List.countP_congr (q := fun c =>
    decide (c.centID_i = x.id ∧ c.centID_j = y.id))
    (fun c _ => by simp [Function.comp_apply, cell_dist2border])]
  rw [List.countP_flatMap]
  simp only [Function.comp_def]
  rw [List.map_congr_left (fun t _ =>
    countP_filterMap_pairStep p fr t x.id y.id p.trackList)]
  rw [map_sum_single p.trackList _ x hnd hx
    (fun t ht htne => if_neg (fun hEq => htne (hinj ht hx hEq)))]
  rw [if_pos rfl]
  exact countP_eq_one_unique p.trackList _ y hnd hy (by simp [hsome])
    (fun nbr hnbr hq => by
      simp only [decide_eq_true_eq] at hq
      exact hinj hnbr hy hq.1)

/-- Claim C2, amended.  `findNeighbors` emits one `Cell` per surviving
ordered pair, so a surviving unordered pair of distinct tracks yields
exactly two candidates — one in each orientation, with identical
distance filters passing by symmetry; the canonical one-per-unordered-
pair guarantee only holds after the downstream row filter of `pair`
(`centID_j > centID_i`), which keeps exactly one of the two. -/
theorem findNeighbors_one_per_ordered_pair (p : Pairer) (fr : ℚ) (a b : Track)
    (hmem_a : a ∈ p.trackList) (hmem_b : b ∈ p.trackList)
    (hnodup : (p.trackList.map Track.id).Nodup) (hneq : a.id ≠ b.id)
    (ha : ¬ a.duration < p.cfg.min_overlap)
    (hsurv : (pairStep p fr a b).isSome = true) :
    (findNeighbors p fr).countP
        (fun c => decide (c.centID_i = a.id ∧ c.centID_j = b.id)) = 1 ∧
    (findNeighbors p fr).countP
        (fun c => decide (c.centID_i = b.id ∧ c.centID_j = a.id)) = 1 ∧
    (canonicalRows (findNeighbors p fr)).countP
        (fun c => decide ((c.centID_i = a.id ∧ c.centID_j = b.id) ∨
          (c.centID_i = b.id ∧ c.centID_j = a.id))) = 1 := by
  obtain ⟨c0, hc0⟩ := Option.isSome_iff_exists.mp hsurv
  have hIa := lookupTrack_self p a hmem_a hnodup
  have hJb := lookupTrack_self p b hmem_b hnodup
  have hsurv' : (pairStep p fr b a).isSome = true :=
    pairStep_swap p fr a b hIa hJb ha c0 hc0
  have h1 := countP_findNeighbors p fr a b hmem_a hmem_b hnodup hsurv
  have h2 := countP_findNeighbors p fr b a hmem_b hmem_a hnodup hsurv'
  refine ⟨h1, h2, ?_⟩
  unfold canonicalRows
  rw [List.countP_filter]
  rcases lt_or_gt_of_ne hneq with hlt | hlt
  · rw [List.countP_congr (q := fun c =>
      decide (c.centID_i = a.id ∧ c.centID_j = b.id)) ?_]
    · exact h1
    · intro c _
      simp only [Bool.and_eq_true, decide_eq_true_eq]
      constructor
      · rintro ⟨hP1 | hP2, hltc⟩
        · exact hP1
        · exfalso
          rw [hP2.1, hP2.2] at hltc
          exact absurd hltc (not_lt.mpr (le_of_lt hlt))
      · intro hP1
        refine ⟨Or.inl hP1, ?_⟩
        rw [hP1.1, hP1.2]
        exact hlt
  · rw [List.countP_congr (q := fun c =>
      decide (c.centID_i = b.id ∧ c.centID_j = a.id)) ?_]
    · exact h2
    · intro c _
      simp only [Bool.and_eq_true, decide_eq_true_eq]
      constructor
      · rintro ⟨hP1 | hP2, hltc⟩
        · exfalso
          rw [hP1.1, hP1.2] at hltc
          exact absurd hltc (not_lt.mpr (le_of_lt hlt))
        · exact hP2
      · intro hP2
        refine ⟨Or.inr hP2, ?_⟩
        rw [hP2.1, hP2.2]
        exact hlt

/-- Witness for the amended claim C2 at the concrete two-track state:
each orientation of the surviving pair (1,2) occurs exactly once, and
after the downstream canonical filter the unordered pair occurs exactly
once. -/
theorem findNeighbors_one_per_ordered_pair_witness :
    (findNeighbors (pGen cfgEx) 1).countP
        (fun c => decide (c.centID_i = trackA.id ∧ c.centID_j = trackB.id)) = 1 ∧
    (findNeighbors (pGen cfgEx) 1).countP
        (fun c => decide (c.centID_i = trackB.id ∧ c.centID_j = trackA.id)) = 1 ∧
    (canonicalRows (findNeighbors (pGen cfgEx) 1)).countP
        (fun c => decide ((c.centID_i = trackA.id ∧ c.centID_j = trackB.id) ∨
          (c.centID_i = trackB.id ∧ c.centID_j = trackA.id))) = 1 :=
  findNeighbors_one_per_ordered_pair (pGen cfgEx) 1 trackA trackB
    (by show trackA ∈ [trackA, trackB]; simp)
    (by show trackB ∈ [trackA, trackB]; simp)
    (by show ([1, 2] : List ℤ).Nodup; decide)
    (by show (1 : ℤ) ≠ 2; decide)
    (by show ¬ (3 : ℚ) < 2; norm_num)
    (pairStep_pGen_AB_isSome cfgEx 1 (by show (2 : ℚ) ≤ 3; norm_num)
      (by show (0 : ℚ) ≤ 11; norm_num) (by show (0 : ℚ) ≤ 4; norm_num))

end Centracker
